import Mathlib

/-!
# system_monitor.c : the metrics-sampling core

A shallow embedding of `get_cpu_usage` and `get_memory_info` from
`src/system_monitor.c`, one definition per platform branch of the
`#ifdef _WIN32 / __APPLE__ / else` ladder, followed by the properties of the
specification that concern them.

* `unsigned long long` values are natural numbers reduced modulo `2 ^ 64`.
* `double` values are modelled by `Double`: the finite binary64 numbers as
  rationals, the two infinities and NaN.  Arithmetic rounds to nearest, ties to
  even, as IEEE 754 prescribes (`Double.round`).  The model has one zero: the
  program only ever divides by the conversion of an unsigned integer, which is
  `+0.0` when it is zero, and `-0.0 == 0.0` in C.  Every operation rounds its
  exact result once (`FLT_EVAL_METHOD` 0).
* `static` locals become an explicit state that each call receives and returns.
* What the operating system hands back (file contents, tick arrays, status
  structures, return codes) is an argument of the function.
-/

namespace SystemMonitor

/-! ## The C type `double` -/

/-- Values of the C type `double` (IEEE 754 binary64). -/
inductive Double where
  | finite (q : ℚ)
  | posInf
  | negInf
  | nan
deriving DecidableEq

/-- Nearest integer, ties to the even one. -/
def roundHalfEven (x : ℚ) : ℤ :=
  if x - ⌊x⌋ < 1 / 2 then ⌊x⌋
  else if 1 / 2 < x - ⌊x⌋ then ⌊x⌋ + 1
  else if ⌊x⌋ % 2 = 0 then ⌊x⌋ else ⌊x⌋ + 1

/-- Binary exponent of the binade of `q`: `⌊log₂ |q|⌋`, but never below the
exponent `-1022` of the smallest normal number (subnormals share that one). -/
def binade (q : ℚ) : ℤ := max (Int.log 2 |q|) (-1022)

/-- Spacing of the binary64 numbers around `q` (53 significant bits). -/
def ulp (q : ℚ) : ℚ := 2 ^ (binade q - 52)

/-- The value `q` rounds to when the exponent range is unbounded above. -/
def roundValue (q : ℚ) : ℚ := roundHalfEven (q / ulp q) * ulp q

/-- Rounding of an exact result to binary64, round-to-nearest-even: a result
whose rounded magnitude reaches `2 ^ 1024` overflows to an infinity. -/
def Double.round (q : ℚ) : Double :=
  if 2 ^ 1024 ≤ |roundValue q| then (if 0 < q then Double.posInf else Double.negInf)
  else Double.finite (roundValue q)

/-- Conversion `(double) n` of an `unsigned long long`. -/
def Double.ofUInt64 (n : ℕ) : Double := Double.round (n : ℚ)

/-- Conversion of a mathematical integer to `double`. -/
def Double.ofInt (z : ℤ) : Double := Double.round (z : ℚ)

/-- The operator `/` on `double`. -/
def Double.div : Double → Double → Double
  | .finite a, .finite b =>
      if b = 0 then (if a = 0 then .nan else if 0 < a then .posInf else .negInf)
      else Double.round (a / b)
  | .finite _, .posInf => .finite 0
  | .finite _, .negInf => .finite 0
  | .posInf, .finite b => if 0 ≤ b then .posInf else .negInf
  | .negInf, .finite b => if 0 ≤ b then .negInf else .posInf
  | _, _ => .nan

/-- The operator `-` on `double`. -/
def Double.sub : Double → Double → Double
  | .finite a, .finite b => Double.round (a - b)
  | .finite _, .posInf => .negInf
  | .finite _, .negInf => .posInf
  | .posInf, .finite _ => .posInf
  | .posInf, .negInf => .posInf
  | .negInf, .finite _ => .negInf
  | .negInf, .posInf => .negInf
  | _, _ => .nan

/-- The operator `*` on `double`. -/
def Double.mul : Double → Double → Double
  | .finite a, .finite b => Double.round (a * b)
  | .finite a, .posInf => if a = 0 then .nan else if 0 < a then .posInf else .negInf
  | .finite a, .negInf => if a = 0 then .nan else if 0 < a then .negInf else .posInf
  | .posInf, .finite b => if b = 0 then .nan else if 0 < b then .posInf else .negInf
  | .negInf, .finite b => if b = 0 then .nan else if 0 < b then .negInf else .posInf
  | .posInf, .posInf => .posInf
  | .posInf, .negInf => .negInf
  | .negInf, .posInf => .negInf
  | .negInf, .negInf => .posInf
  | _, _ => .nan

/-- A `double` that is a number between 0.0 and 100.0. -/
def Double.inPercentRange : Double → Prop
  | .finite q => 0 ≤ q ∧ q ≤ 100
  | _ => False

/-- The rationals that binary64 holds exactly, the overflow threshold aside:
an integer of fewer than 54 bits times a power of two no smaller than the
least subnormal `2 ^ (-1074)`. -/
def Representable (c : ℚ) : Prop :=
  ∃ m e : ℤ, -1074 ≤ e ∧ |m| < 2 ^ 53 ∧ c = m * 2 ^ e

/-! ## `unsigned long long` arithmetic -/

/-- Number of values of an `unsigned long long`. -/
def U64 : ℕ := 2 ^ 64

/-- The operator `-` on `unsigned long long`: it wraps around. -/
def sub64 (a b : ℕ) : ℕ := (a + (U64 - b % U64)) % U64

/-- The operator `+` on `unsigned long long`. -/
def add64 (a b : ℕ) : ℕ := (a + b) % U64

/-! ## `get_cpu_usage`, Linux branch (lines 107-140) -/

/-- The eight variables filled by `sscanf` from the first line of `/proc/stat`. -/
structure CpuFields where
  user : ℕ
  nice : ℕ
  system : ℕ
  idle_time : ℕ
  iowait : ℕ
  irq : ℕ
  softirq : ℕ
  steal : ℕ

/-- Line 122: `idle = idle_time + iowait`. -/
def CpuFields.idle (f : CpuFields) : ℕ := (f.idle_time + f.iowait) % U64

/-- Line 123: `total = user + nice + system + idle_time + iowait + irq + softirq + steal`. -/
def CpuFields.total (f : CpuFields) : ℕ :=
  (f.user + f.nice + f.system + f.idle_time + f.iowait + f.irq + f.softirq + f.steal) % U64

/-- What one call finds at `/proc/stat`. -/
inductive ProcStat where
  /-- Here `fopen` returned `NULL`. -/
  | unreadable
  /-- Here `fopen` succeeded and `fgets` returned `NULL`. -/
  | noLine
  /-- Here `fgets` read a line; `f` holds the variables after `sscanf`. -/
  | line (f : CpuFields)

/-- The `static` locals `prev_total` and `prev_idle`. -/
structure LinuxCpuState where
  prev_total : ℕ
  prev_idle : ℕ
deriving DecidableEq

/-- Line 107: `static unsigned long long prev_total = 0, prev_idle = 0;`. -/
def LinuxCpuState.initial : LinuxCpuState := ⟨0, 0⟩

/-- Lines 108-126: the locals `total` and `idle` once the file is closed
(both keep their initialiser 0 when `fgets` reads nothing), or `none` when
`fopen` returned `NULL`. -/
def read_proc_stat : ProcStat → Option (ℕ × ℕ)
  | .unreadable => none
  | .noLine => some (0, 0)
  | .line f => some (f.total, f.idle)

/-- The Linux branch of `get_cpu_usage`: returned value and new `static` state. -/
def get_cpu_usage_linux (st : LinuxCpuState) (file : ProcStat) : Double × LinuxCpuState :=
  match read_proc_stat file with
  | none => (.finite 0, st)
  | some (total, idle) =>
      if st.prev_total = 0 then (.finite 0, ⟨total, idle⟩)
      else
        let total_delta := sub64 total st.prev_total
        let idle_delta := sub64 idle st.prev_idle
        (Double.mul (.finite 100)
          (Double.sub (.finite 1)
            (Double.div (Double.ofUInt64 idle_delta) (Double.ofUInt64 total_delta))),
          ⟨total, idle⟩)

/-- The values returned by successive calls, as in the loop of `main`. -/
def poll_linux : LinuxCpuState → List ProcStat → List Double
  | _, [] => []
  | st, file :: rest =>
      (get_cpu_usage_linux st file).1 :: poll_linux (get_cpu_usage_linux st file).2 rest

/-! ## `get_cpu_usage`, macOS branch (lines 67-104) -/

/-- The `cpu_ticks` of one processor as `host_processor_info` lays them out,
read through `integer_t` (a 32-bit `int`): `CPU_STATE_USER`,
`CPU_STATE_SYSTEM`, `CPU_STATE_IDLE`, `CPU_STATE_NICE`. -/
structure CpuLoad where
  user : ℤ
  system : ℤ
  idle : ℤ
  nice : ℤ

/-- Result of an `int` addition, kept in 32 bits (two's complement): what the
machine yields where C leaves signed overflow undefined. -/
def wrap32 (z : ℤ) : ℤ := (z + 2 ^ 31) % 2 ^ 32 - 2 ^ 31

/-- Conversion of an `int` to `unsigned long long`. -/
def toU64 (z : ℤ) : ℕ := (z % 2 ^ 64).toNat

/-- The locals `total_user`, `total_system`, `total_idle`. -/
structure MacSample where
  total_user : ℕ
  total_system : ℕ
  total_idle : ℕ
deriving DecidableEq

/-- Lines 74-81: the loop over the processors. -/
def host_processor_totals (processor_info : List CpuLoad) : MacSample :=
  processor_info.foldl
    (fun acc p =>
      ⟨add64 acc.total_user (toU64 (wrap32 (p.user + p.nice))),
       add64 acc.total_system (toU64 p.system),
       add64 acc.total_idle (toU64 p.idle)⟩)
    ⟨0, 0, 0⟩

/-- The `static` locals `prev_user`, `prev_system` and `prev_idle`. -/
structure MacCpuState where
  prev_user : ℕ
  prev_system : ℕ
  prev_idle : ℕ
deriving DecidableEq

/-- Line 85: all three start at 0. -/
def MacCpuState.initial : MacCpuState := ⟨0, 0, 0⟩

/-- The macOS branch of `get_cpu_usage`: returned value and new `static` state. -/
def get_cpu_usage_macos (st : MacCpuState) (processor_info : List CpuLoad) :
    Double × MacCpuState :=
  let s := host_processor_totals processor_info
  if st.prev_user = 0 then (.finite 0, ⟨s.total_user, s.total_system, s.total_idle⟩)
  else
    let total_delta :=
      add64 (add64 (sub64 s.total_user st.prev_user) (sub64 s.total_system st.prev_system))
        (sub64 s.total_idle st.prev_idle)
    let cpu_use :=
      Double.mul (.finite 100)
        (Double.sub (.finite 1)
          (Double.div (Double.ofUInt64 (sub64 s.total_idle st.prev_idle))
            (Double.ofUInt64 total_delta)))
    (cpu_use, ⟨s.total_user, s.total_system, s.total_idle⟩)

/-- The values returned by successive calls, as in the loop of `main`. -/
def poll_macos : MacCpuState → List (List CpuLoad) → List Double
  | _, [] => []
  | st, info :: rest =>
      (get_cpu_usage_macos st info).1 :: poll_macos (get_cpu_usage_macos st info).2 rest

/-- The sum of the three aggregate counters, as an `unsigned long long`. -/
def MacSample.total (s : MacSample) : ℕ :=
  (s.total_user + s.total_system + s.total_idle) % U64

/-! ## `get_cpu_usage`, Windows branch (lines 48-64) -/

/-- The `static` flag `init`; the query and counter handles carry no value the
function computes with. -/
structure WinCpuState where
  init : ℤ
deriving DecidableEq

/-- Line 50: `static int init = 0;`. -/
def WinCpuState.initial : WinCpuState := ⟨0⟩

/-- The caller's three variables behind the pointer arguments. -/
structure MemInfo where
  total_mem : ℕ
  used_mem : ℕ
  free_mem : ℕ
deriving DecidableEq

/-- The fields of `struct sysinfo` that are read. -/
structure SysInfo where
  totalram : ℕ
  freeram : ℕ
  mem_unit : ℕ

/-- The Linux branch (`unsigned long` of 64 bits): the variables after the call
and the lines printed; `ret` is what `sysinfo` returned. -/
def get_memory_info_linux (ret : ℤ) (si : SysInfo) (out : MemInfo) : MemInfo × List String :=
  if ret ≠ 0 then (out, ["Error getting system info\n"])
  else
    let total_mem := (si.totalram * si.mem_unit) % U64
    let free_mem := (si.freeram * si.mem_unit) % U64
    (⟨total_mem, sub64 total_mem free_mem, free_mem⟩, [])

/-- The fields of `vm_statistics64_data_t` that are read. -/
structure VmStats where
  free_count : ℕ
  active_count : ℕ
  inactive_count : ℕ
  wire_count : ℕ

/-- The macOS branch; `kr` is what `host_statistics64` returned and
`HOST_VM_INFO64` the flavor constant of `<mach/host_info.h>` it is compared
with (line 166). -/
def get_memory_info_macos (HOST_VM_INFO64 : ℤ) (kr : ℤ) (vm_stats : VmStats) (page_size : ℕ)
    (out : MemInfo) : MemInfo × List String :=
  if HOST_VM_INFO64 = kr then (out, ["Error getting VM statistics\n"])
  else
    let free_count := vm_stats.free_count % U64
    let active_count := vm_stats.active_count % U64
    let inactive_count := vm_stats.inactive_count % U64
    let wire_count := vm_stats.wire_count % U64
    let total_mem := ((free_count + active_count + inactive_count + wire_count) * page_size) % U64
    let free_mem := (free_count * page_size) % U64
    (⟨total_mem, sub64 total_mem free_mem, free_mem⟩, [])

/-- The Windows branch; `ok` is what `GlobalMemoryStatusEx` returned, which the
code does not look at. -/
def get_memory_info_win32 (_ok : Bool) (ullTotalPhys ullAvailPhys : ℕ) (_out : MemInfo) :
    MemInfo × List String :=
  let total_mem := ullTotalPhys % U64
  let free_mem := ullAvailPhys % U64
  (⟨total_mem, sub64 total_mem free_mem, free_mem⟩, [])

/-! ## The formula of the specification -/

/-- Utilization as the specification writes it, `100 * (1 - idle_delta / total_delta)`
with `total_delta = current.total - previous.total` and
`idle_delta = current.idle - previous.idle` taken as integers (they can be
negative), evaluated in `double`. -/
def spec_utilization (prev_total prev_idle cur_total cur_idle : ℕ) : Double :=
  let total_delta : ℤ := (cur_total : ℤ) - prev_total
  let idle_delta : ℤ := (cur_idle : ℤ) - prev_idle
  Double.mul (.finite 100)
    (Double.sub (.finite 1) (Double.div (Double.ofInt idle_delta) (Double.ofInt total_delta)))

/-- The relation the specification states between the three values of a memory
snapshot, in `unsigned long long` arithmetic: `used == total - free` and
`used + free == total`. -/
def MemInfo.consistent (m : MemInfo) : Prop :=
  m.used_mem = sub64 m.total_mem m.free_mem ∧ add64 m.used_mem m.free_mem = m.total_mem

/-- Two successive Linux samples between which `total` strictly increases and
`idle` increases by no more than `total` does (as when no counter decreases). -/
def CpuFields.advances (a b : CpuFields) : Prop :=
  a.total < b.total ∧ a.idle ≤ b.idle ∧ b.idle - a.idle ≤ b.total - a.total

/-- Two successive macOS samples between which the total strictly increases and
the idle count increases by no more than the total does. -/
def MacSample.advances (a b : MacSample) : Prop :=
  a.total < b.total ∧ a.total_idle ≤ b.total_idle ∧
    b.total_idle - a.total_idle ≤ b.total - a.total

/-! ## Concrete readings used in the examples -/

/-- A first line of `/proc/stat` with total 800 and idle 450. -/
def stat_800_450 : CpuFields := ⟨350, 0, 0, 400, 50, 0, 0, 0⟩

/-- A later line with total 1000 and idle 500. -/
def stat_1000_500 : CpuFields := ⟨500, 0, 0, 440, 60, 0, 0, 0⟩

/-- A later line with total 1000 and idle 400: `iowait` fell from 50 to 0. -/
def stat_1000_400 : CpuFields := ⟨600, 0, 0, 400, 0, 0, 0, 0⟩

/-- A later line with total 1000 and idle 850: `user` fell from 350 to 150. -/
def stat_1000_850 : CpuFields := ⟨150, 0, 0, 800, 50, 0, 0, 0⟩

/-- A line whose eight fields are all 0. -/
def stat_zero : CpuFields := ⟨0, 0, 0, 0, 0, 0, 0, 0⟩

/-- A line with total 100 and idle 0. -/
def stat_100_0 : CpuFields := ⟨100, 0, 0, 0, 0, 0, 0, 0⟩

/-- One processor with no user or nice ticks yet: system 5, idle 10. -/
def ticks_first : List CpuLoad := [⟨0, 5, 10, 0⟩]

/-- The same processor later: user 40, system 35, idle 20. -/
def ticks_second : List CpuLoad := [⟨40, 35, 20, 0⟩]

/-- A later line with total 1000 and idle 450: only `user` advanced. -/
def stat_1000_450 : CpuFields := ⟨550, 0, 0, 400, 50, 0, 0, 0⟩

/-- A later line with total 1000 and idle 600. -/
def stat_1000_600 : CpuFields := ⟨400, 0, 0, 540, 60, 0, 0, 0⟩

/-! ## Rounding to binary64 -/

theorem roundHalfEven_intCast (n : ℤ) : roundHalfEven (n : ℚ) = n := by
  simp [roundHalfEven]

theorem roundHalfEven_mono {x y : ℚ} (h : x ≤ y) : roundHalfEven x ≤ roundHalfEven y := by
  have hfx := Int.floor_le x
  have hfy := Int.floor_le y
  have hlx := Int.lt_floor_add_one x
  have hly := Int.lt_floor_add_one y
  have hm : ⌊x⌋ ≤ ⌊y⌋ := Int.floor_mono h
  rcases hm.lt_or_eq with hlt | heq
  · have h1 : roundHalfEven x ≤ ⌊x⌋ + 1 := by
      unfold roundHalfEven; split_ifs <;> omega
    have h2 : ⌊y⌋ ≤ roundHalfEven y := by
      unfold roundHalfEven; split_ifs <;> omega
    omega
  · unfold roundHalfEven
    rw [heq] at hfx hlx ⊢
    split_ifs <;> first | omega | (exfalso; linarith)

theorem roundHalfEven_eq_of_abs_lt {x : ℚ} {m : ℤ} (h : |x - m| < 1 / 2) :
    roundHalfEven x = m := by
  rw [abs_lt] at h
  obtain ⟨h1, h2⟩ := h
  have hfx := Int.floor_le x
  have hlx := Int.lt_floor_add_one x
  have hA : m - 1 < ⌊x⌋ + 1 := by
    have : ((m - 1 : ℤ) : ℚ) < ((⌊x⌋ + 1 : ℤ) : ℚ) := by push_cast; linarith
    exact_mod_cast this
  have hB : ⌊x⌋ < m + 1 := by
    have : ((⌊x⌋ : ℤ) : ℚ) < ((m + 1 : ℤ) : ℚ) := by push_cast; linarith
    exact_mod_cast this
  have hcase : ⌊x⌋ = m ∨ ⌊x⌋ = m - 1 := by omega
  unfold roundHalfEven
  rcases hcase with hc | hc
  · rw [hc]
    have : x - (m : ℚ) < 1 / 2 := by linarith
    rw [if_pos this]
  · rw [hc]
    have h3 : ¬ (x - ((m - 1 : ℤ) : ℚ) < 1 / 2) := by push_cast; linarith
    have h4 : 1 / 2 < x - ((m - 1 : ℤ) : ℚ) := by push_cast; linarith
    simp only [h3, h4, if_true, if_false]
    omega


theorem abs_lt_two_zpow_binade_succ (q : ℚ) : |q| < 2 ^ (binade q + 1) := by
  have h1 : |q| < ((2 : ℕ) : ℚ) ^ (Int.log 2 |q| + 1) := Int.lt_zpow_succ_log_self (by norm_num) _
  have h2 : ((2 : ℕ) : ℚ) ^ (Int.log 2 |q| + 1) ≤ ((2 : ℕ) : ℚ) ^ (binade q + 1) := by
    apply zpow_le_zpow_right₀ (by norm_num)
    unfold binade
    have := le_max_left (Int.log 2 |q|) (-1022)
    omega
  have h3 := lt_of_lt_of_le h1 h2
  simpa using h3

theorem binade_eq_of_bounds {q : ℚ} {e : ℤ} (he : -1022 ≤ e) (h1 : (2 : ℚ) ^ e ≤ |q|)
    (h2 : |q| < 2 ^ (e + 1)) : binade q = e := by
  have hpos : (0 : ℚ) < |q| := lt_of_lt_of_le (by positivity) h1
  have ha : e ≤ Int.log 2 |q| := by
    rw [← Int.zpow_le_iff_le_log (by norm_num) hpos]
    simpa using h1
  have hb : Int.log 2 |q| < e + 1 := by
    rw [← Int.lt_zpow_iff_log_lt (by norm_num) hpos]
    simpa using h2
  unfold binade
  rw [max_eq_left (by omega)]
  omega

theorem binade_ge (q : ℚ) : -1022 ≤ binade q := le_max_right _ _

theorem ulp_pos (q : ℚ) : 0 < ulp q := by
  unfold ulp; positivity


theorem Representable.exists_mul {c : ℚ} (hc : Representable c) {b : ℤ}
    (h : b = -1022 ∨ (2 : ℚ) ^ b ≤ |c|) : ∃ k : ℤ, c = k * 2 ^ (b - 52) := by
  obtain ⟨m, e, he, hm, rfl⟩ := hc
  have hbe : b - 52 ≤ e := by
    rcases h with h | h
    · omega
    · have hm' : |(m : ℚ)| < 2 ^ (53 : ℤ) := by
        have : ((|m| : ℤ) : ℚ) < ((2 ^ 53 : ℤ) : ℚ) := by exact_mod_cast hm
        rw [Int.cast_abs] at this
        calc |(m : ℚ)| < ((2 ^ 53 : ℤ) : ℚ) := this
          _ = 2 ^ (53 : ℤ) := by norm_num
      have h2 : (0 : ℚ) < 2 ^ e := by positivity
      have h3 : |(m : ℚ) * 2 ^ e| < 2 ^ (53 + e) := by
        rw [abs_mul, abs_of_pos h2, zpow_add₀ (by norm_num)]
        exact mul_lt_mul_of_pos_right hm' h2
      have h4 : (2 : ℚ) ^ b < 2 ^ (53 + e) := lt_of_le_of_lt h h3
      have h5 : b < 53 + e := (zpow_lt_zpow_iff_right₀ (by norm_num)).1 h4
      omega
  refine ⟨m * 2 ^ (e - (b - 52)).toNat, ?_⟩
  have h6 : ((e - (b - 52)).toNat : ℤ) = e - (b - 52) := Int.toNat_of_nonneg (by omega)
  have h7 : (2 : ℚ) ^ e = 2 ^ (((e - (b - 52)).toNat : ℤ)) * 2 ^ (b - 52) := by
    rw [← zpow_add₀ (by norm_num), h6]
    congr 1; ring
  push_cast
  rw [h7, zpow_natCast]
  ring

theorem representable_two_zpow {k : ℤ} (hk : -1074 ≤ k) : Representable ((2 : ℚ) ^ k) :=
  ⟨1, k, hk, by norm_num, by simp⟩


theorem two_zpow_binade (q : ℚ) : (2 : ℚ) ^ binade q = 2 ^ (52 : ℤ) * ulp q := by
  unfold ulp
  rw [← zpow_add₀ (by norm_num)]
  congr 1; ring

theorem roundValue_zero : roundValue 0 = 0 := by
  unfold roundValue
  rw [zero_div]
  have := roundHalfEven_intCast 0
  simp only [Int.cast_zero] at this
  rw [this]; simp

theorem two_zpow_binade_le_abs {x : ℚ} (hx0 : x ≠ 0) (hb : binade x ≠ -1022) :
    (2 : ℚ) ^ (52 : ℕ) * ulp x ≤ |x| := by
  have hb' : -1022 < binade x := lt_of_le_of_ne (binade_ge x) (Ne.symm hb)
  have hlog : binade x = Int.log 2 |x| := by
    unfold binade at hb' ⊢
    rcases max_cases (Int.log 2 |x|) (-1022) with ⟨h, _⟩ | ⟨h, _⟩
    · exact h
    · omega
  have hpos : (0 : ℚ) < |x| := abs_pos.2 hx0
  have hle : (2 : ℚ) ^ binade x ≤ |x| := by
    rw [hlog]
    have := Int.zpow_log_le_self (b := 2) (by norm_num) hpos
    simpa using this
  rw [two_zpow_binade] at hle
  have : (2 : ℚ) ^ (52 : ℤ) = 2 ^ (52 : ℕ) := by norm_num
  rw [this] at hle
  exact hle

theorem roundValue_le {x c : ℚ} (hxc : x ≤ c) (hc : Representable c) : roundValue x ≤ c := by
  have hu := ulp_pos x
  by_cases hcase : binade x = -1022 ∨ (2 : ℚ) ^ binade x ≤ |c|
  · obtain ⟨k, hk⟩ := hc.exists_mul hcase
    have hk' : c = k * ulp x := hk
    have h1 : x / ulp x ≤ k := by
      rw [div_le_iff₀ hu, ← hk']; exact hxc
    have h2 := roundHalfEven_mono h1
    rw [roundHalfEven_intCast] at h2
    unfold roundValue
    rw [hk']
    exact mul_le_mul_of_nonneg_right (by exact_mod_cast h2) hu.le
  · push_neg at hcase
    obtain ⟨hb, hlt⟩ := hcase
    rcases eq_or_ne x 0 with rfl | hx0
    · rw [roundValue_zero]; exact hxc
    have hle := two_zpow_binade_le_abs hx0 hb
    rw [two_zpow_binade] at hlt
    have hneg : x < 0 := by
      by_contra hnn
      push_neg at hnn
      rw [abs_of_nonneg hnn] at hle
      have := le_abs_self c
      norm_num at hle hlt
      linarith
    rw [abs_of_neg hneg] at hle
    have h1 : x / ulp x ≤ ((-(2 ^ 52) : ℤ) : ℚ) := by
      rw [div_le_iff₀ hu]; push_cast
      linarith
    have h2 := roundHalfEven_mono h1
    rw [roundHalfEven_intCast] at h2
    have h3 : roundValue x ≤ ((-(2 ^ 52) : ℤ) : ℚ) * ulp x := by
      unfold roundValue
      exact mul_le_mul_of_nonneg_right (by exact_mod_cast h2) hu.le
    have h5 := neg_abs_le c
    push_cast at h3
    norm_num at h3 hlt
    linarith

theorem le_roundValue {x c : ℚ} (hcx : c ≤ x) (hc : Representable c) : c ≤ roundValue x := by
  have hu := ulp_pos x
  by_cases hcase : binade x = -1022 ∨ (2 : ℚ) ^ binade x ≤ |c|
  · obtain ⟨k, hk⟩ := hc.exists_mul hcase
    have hk' : c = k * ulp x := hk
    have h1 : (k : ℚ) ≤ x / ulp x := by
      rw [le_div_iff₀ hu, ← hk']; exact hcx
    have h2 := roundHalfEven_mono h1
    rw [roundHalfEven_intCast] at h2
    unfold roundValue
    rw [hk']
    exact mul_le_mul_of_nonneg_right (by exact_mod_cast h2) hu.le
  · push_neg at hcase
    obtain ⟨hb, hlt⟩ := hcase
    rcases eq_or_ne x 0 with rfl | hx0
    · rw [roundValue_zero]; exact hcx
    have hle := two_zpow_binade_le_abs hx0 hb
    rw [two_zpow_binade] at hlt
    have hpos : 0 < x := by
      by_contra hnn
      push_neg at hnn
      rw [abs_of_nonpos hnn] at hle
      have := neg_abs_le c
      norm_num at hle hlt
      linarith
    rw [abs_of_pos hpos] at hle
    have h1 : (((2 ^ 52) : ℤ) : ℚ) ≤ x / ulp x := by
      rw [le_div_iff₀ hu]; push_cast
      linarith
    have h2 := roundHalfEven_mono h1
    rw [roundHalfEven_intCast] at h2
    have h3 : (((2 ^ 52) : ℤ) : ℚ) * ulp x ≤ roundValue x := by
      unfold roundValue
      exact mul_le_mul_of_nonneg_right (by exact_mod_cast h2) hu.le
    have h5 := le_abs_self c
    push_cast at h3
    norm_num at h3 hlt
    linarith

theorem roundValue_of_representable {c : ℚ} (hc : Representable c) : roundValue c = c :=
  le_antisymm (roundValue_le le_rfl hc) (le_roundValue le_rfl hc)

theorem round_of_representable {c : ℚ} (hc : Representable c) (hb : |c| < 2 ^ 1024) :
    Double.round c = Double.finite c := by
  unfold Double.round
  rw [roundValue_of_representable hc, if_neg (not_le.2 hb)]

theorem round_of_bounds {x lo hi : ℚ} (hlo : Representable lo) (hhi : Representable hi)
    (h1 : lo ≤ x) (h2 : x ≤ hi) (b1 : -2 ^ 1024 < lo) (b2 : hi < 2 ^ 1024) :
    Double.round x = Double.finite (roundValue x) ∧ lo ≤ roundValue x ∧ roundValue x ≤ hi := by
  have hA := le_roundValue h1 hlo
  have hB := roundValue_le h2 hhi
  refine ⟨?_, hA, hB⟩
  unfold Double.round
  rw [if_neg]
  rw [not_le, abs_lt]
  constructor <;> linarith

theorem roundValue_mono {x y : ℚ} (hx : 0 ≤ x) (hxy : x ≤ y) : roundValue x ≤ roundValue y := by
  rcases eq_or_lt_of_le hx with rfl | hpos
  · rw [roundValue_zero]
    exact le_roundValue hxy ⟨0, 0, by norm_num, by norm_num, by simp⟩
  have hypos : 0 < y := lt_of_lt_of_le hpos hxy
  have hlog : Int.log 2 |x| ≤ Int.log 2 |y| := by
    apply Int.log_mono_right (abs_pos.2 hpos.ne')
    rw [abs_of_pos hpos, abs_of_pos hypos]; exact hxy
  have hbin : binade x ≤ binade y := by
    unfold binade; exact max_le_max hlog le_rfl
  rcases hbin.lt_or_eq with hlt | heq
  · have hc : Representable ((2 : ℚ) ^ binade y) :=
      representable_two_zpow (by have := binade_ge y; omega)
    have h1 : x ≤ (2 : ℚ) ^ binade y := by
      have h := abs_lt_two_zpow_binade_succ x
      rw [abs_of_pos hpos] at h
      have h' : (2 : ℚ) ^ (binade x + 1) ≤ 2 ^ binade y :=
        zpow_le_zpow_right₀ (by norm_num) (by omega)
      linarith
    have h2 : (2 : ℚ) ^ binade y ≤ y := by
      have hb : binade y ≠ -1022 := by have := binade_ge x; omega
      have h := two_zpow_binade_le_abs hypos.ne' hb
      rw [abs_of_pos hypos] at h
      rw [two_zpow_binade]
      norm_num at h ⊢
      exact h
    exact le_trans (roundValue_le h1 hc) (le_roundValue h2 hc)
  · have hu : ulp x = ulp y := by unfold ulp; rw [heq]
    unfold roundValue
    rw [hu]
    have h1 : x / ulp y ≤ y / ulp y := div_le_div_of_nonneg_right hxy (ulp_pos y).le
    have h2 := roundHalfEven_mono h1
    exact mul_le_mul_of_nonneg_right (by exact_mod_cast h2) (ulp_pos y).le

theorem representable_intCast {n : ℤ} (h : |n| < 2 ^ 53) : Representable (n : ℚ) :=
  ⟨n, 0, by norm_num, h, by simp⟩

theorem representable_zero : Representable 0 :=
  ⟨0, 0, by norm_num, by norm_num, by simp⟩

theorem representable_one : Representable 1 :=
  ⟨1, 0, by norm_num, by norm_num, by simp⟩

theorem representable_hundred : Representable 100 :=
  ⟨100, 0, by norm_num, by norm_num, by simp⟩

theorem representable_two_pow_64 : Representable (2 ^ 64) :=
  ⟨1, 64, by norm_num, by norm_num, by norm_num⟩

theorem round_zero : Double.round 0 = Double.finite 0 :=
  round_of_representable representable_zero (by norm_num)

theorem round_one : Double.round 1 = Double.finite 1 :=
  round_of_representable representable_one (by norm_num)

theorem round_hundred : Double.round 100 = Double.finite 100 :=
  round_of_representable representable_hundred (by norm_num)

/-! ## The utilization expression `100.0 * (1.0 - (double)idle_delta / total_delta)` -/

theorem ofUInt64_bounds {n : ℕ} (h : n < U64) :
    Double.ofUInt64 n = Double.finite (roundValue n) ∧ 0 ≤ roundValue (n : ℚ) ∧
      roundValue (n : ℚ) ≤ 2 ^ 64 := by
  have h1 : (0 : ℚ) ≤ (n : ℚ) := Nat.cast_nonneg n
  have h2 : (n : ℚ) ≤ 2 ^ 64 := by
    have : n ≤ 2 ^ 64 := by unfold U64 at h; omega
    exact_mod_cast this
  exact round_of_bounds representable_zero representable_two_pow_64 h1 h2 (by norm_num)
    (by norm_num)

theorem one_le_roundValue_natCast {n : ℕ} (h : 0 < n) : 1 ≤ roundValue (n : ℚ) := by
  have h1 : (1 : ℚ) ≤ (n : ℚ) := by exact_mod_cast h
  exact le_roundValue h1 representable_one

theorem ofUInt64_zero : Double.ofUInt64 0 = Double.finite 0 := by
  unfold Double.ofUInt64
  rw [Nat.cast_zero]
  exact round_zero

theorem utilization_inPercentRange {i t : ℕ} (hit : i ≤ t) (ht : 0 < t) (htb : t < U64) :
    (Double.mul (Double.finite 100)
      (Double.sub (Double.finite 1)
        (Double.div (Double.ofUInt64 i) (Double.ofUInt64 t)))).inPercentRange := by
  obtain ⟨hi1, hi2, -⟩ := ofUInt64_bounds (lt_of_le_of_lt hit htb)
  obtain ⟨ht1, -, -⟩ := ofUInt64_bounds htb
  have hb1 : 1 ≤ roundValue (t : ℚ) := one_le_roundValue_natCast ht
  have hmono : roundValue (i : ℚ) ≤ roundValue (t : ℚ) :=
    roundValue_mono (Nat.cast_nonneg i) (by exact_mod_cast hit)
  have hbpos : (0 : ℚ) < roundValue (t : ℚ) := by linarith
  rw [hi1, ht1]
  simp only [Double.div]
  rw [if_neg hbpos.ne']
  have hq0 : 0 ≤ roundValue (i : ℚ) / roundValue (t : ℚ) := div_nonneg hi2 hbpos.le
  have hq1 : roundValue (i : ℚ) / roundValue (t : ℚ) ≤ 1 := (div_le_one hbpos).2 hmono
  obtain ⟨hq, hq2, hq3⟩ := round_of_bounds representable_zero representable_one hq0 hq1
    (by norm_num) (by norm_num)
  rw [hq]
  simp only [Double.sub]
  obtain ⟨hs, hs2, hs3⟩ := round_of_bounds (x := 1 - roundValue (roundValue (i : ℚ) /
    roundValue (t : ℚ))) representable_zero representable_one (by linarith) (by linarith)
    (by norm_num) (by norm_num)
  rw [hs]
  simp only [Double.mul]
  obtain ⟨hm, hm2, hm3⟩ := round_of_bounds (x := 100 * roundValue (1 - roundValue
    (roundValue (i : ℚ) / roundValue (t : ℚ)))) representable_zero representable_hundred
    (by linarith) (by linarith) (by norm_num) (by norm_num)
  rw [hm]
  exact ⟨hm2, hm3⟩

theorem utilization_all_idle {t : ℕ} (ht : 0 < t) (htb : t < U64) :
    Double.mul (Double.finite 100)
      (Double.sub (Double.finite 1)
        (Double.div (Double.ofUInt64 t) (Double.ofUInt64 t))) = Double.finite 0 := by
  obtain ⟨ht1, -, -⟩ := ofUInt64_bounds htb
  have hb1 : 1 ≤ roundValue (t : ℚ) := one_le_roundValue_natCast ht
  have hbpos : (0 : ℚ) < roundValue (t : ℚ) := by linarith
  rw [ht1]
  simp only [Double.div]
  rw [if_neg hbpos.ne', div_self hbpos.ne', round_one]
  simp only [Double.sub]
  rw [sub_self, round_zero]
  simp only [Double.mul]
  rw [mul_zero, round_zero]

theorem utilization_no_idle {t : ℕ} (ht : 0 < t) (htb : t < U64) :
    Double.mul (Double.finite 100)
      (Double.sub (Double.finite 1)
        (Double.div (Double.ofUInt64 0) (Double.ofUInt64 t))) = Double.finite 100 := by
  obtain ⟨ht1, -, -⟩ := ofUInt64_bounds htb
  have hb1 : 1 ≤ roundValue (t : ℚ) := one_le_roundValue_natCast ht
  have hbpos : (0 : ℚ) < roundValue (t : ℚ) := by linarith
  rw [ht1, ofUInt64_zero]
  simp only [Double.div]
  rw [if_neg hbpos.ne', zero_div, round_zero]
  simp only [Double.sub]
  rw [sub_zero, round_one]
  simp only [Double.mul]
  rw [mul_one, round_hundred]

theorem utilization_zero_zero :
    Double.mul (Double.finite 100)
      (Double.sub (Double.finite 1)
        (Double.div (Double.ofUInt64 0) (Double.ofUInt64 0))) = Double.nan := by
  rw [ofUInt64_zero]
  simp [Double.div, Double.sub, Double.mul]

theorem utilization_pos_zero {i : ℕ} (hi : 0 < i) (hib : i < U64) :
    Double.mul (Double.finite 100)
      (Double.sub (Double.finite 1)
        (Double.div (Double.ofUInt64 i) (Double.ofUInt64 0))) = Double.negInf := by
  obtain ⟨hi1, -, -⟩ := ofUInt64_bounds hib
  have hb1 : 1 ≤ roundValue (i : ℚ) := one_le_roundValue_natCast hi
  have hbpos : (0 : ℚ) < roundValue (i : ℚ) := by linarith
  rw [hi1, ofUInt64_zero]
  simp [Double.div, Double.sub, Double.mul, hbpos.ne', hbpos]

/-! ## Wrap-around subtraction -/

theorem sub64_lt (a b : ℕ) : sub64 a b < U64 := by
  unfold sub64
  exact Nat.mod_lt _ (by unfold U64; norm_num)

theorem sub64_of_le {a b : ℕ} (hba : b ≤ a) (ha : a < U64) : sub64 a b = a - b := by
  unfold sub64 U64 at *
  omega

theorem sub64_eq_zero_iff {a b : ℕ} (ha : a < U64) (hb : b < U64) : sub64 a b = 0 ↔ a = b := by
  unfold sub64 U64 at *
  omega

theorem CpuFields.total_lt (f : CpuFields) : f.total < U64 := by
  unfold CpuFields.total
  exact Nat.mod_lt _ (by unfold U64; norm_num)

theorem CpuFields.idle_lt (f : CpuFields) : f.idle < U64 := by
  unfold CpuFields.idle
  exact Nat.mod_lt _ (by unfold U64; norm_num)

/-! ## State after a call -/

theorem get_cpu_usage_linux_line_state (st : LinuxCpuState) (f : CpuFields) :
    (get_cpu_usage_linux st (ProcStat.line f)).2 = ⟨f.total, f.idle⟩ := by
  unfold get_cpu_usage_linux
  simp only [read_proc_stat]
  split_ifs <;> rfl

theorem get_cpu_usage_linux_line_value (st : LinuxCpuState) (h : st.prev_total ≠ 0)
    (f : CpuFields) :
    (get_cpu_usage_linux st (ProcStat.line f)).1 =
      Double.mul (Double.finite 100)
        (Double.sub (Double.finite 1)
          (Double.div (Double.ofUInt64 (sub64 f.idle st.prev_idle))
            (Double.ofUInt64 (sub64 f.total st.prev_total)))) := by
  unfold get_cpu_usage_linux
  simp only [read_proc_stat]
  rw [if_neg h]

theorem get_cpu_usage_linux_line_priming (st : LinuxCpuState) (h : st.prev_total = 0)
    (f : CpuFields) :
    (get_cpu_usage_linux st (ProcStat.line f)).1 = Double.finite 0 := by
  unfold get_cpu_usage_linux
  simp only [read_proc_stat]
  rw [if_pos h]

theorem round_dyadic (m e : ℤ) (he : -1074 ≤ e) (hm : |m| < 2 ^ 53) {c : ℚ}
    (hc : c = m * 2 ^ e) (hb : |c| < 2 ^ 1024) : Double.round c = Double.finite c :=
  round_of_representable ⟨m, e, he, hm, hc⟩ hb

theorem ofUInt64_small {n : ℕ} (h : n < 2 ^ 53) : Double.ofUInt64 n = Double.finite n := by
  unfold Double.ofUInt64
  have h1 : ((n : ℤ) : ℚ) = (n : ℚ) := by push_cast; rfl
  have hr : Representable (n : ℚ) := by
    rw [← h1]
    apply representable_intCast
    rw [abs_of_nonneg (by positivity)]
    exact_mod_cast h
  apply round_of_representable hr
  rw [abs_of_nonneg (by positivity)]
  have : (n : ℚ) < 2 ^ 53 := by exact_mod_cast h
  linarith [show (2 : ℚ) ^ 53 < 2 ^ 1024 by norm_num]

theorem round_eval {q : ℚ} (e m : ℤ) (he : -1022 ≤ e) (h1 : (2 : ℚ) ^ e ≤ |q|)
    (h2 : |q| < 2 ^ (e + 1)) (hm : |q / 2 ^ (e - 52) - m| < 1 / 2)
    (hb : |(m : ℚ) * 2 ^ (e - 52)| < 2 ^ 1024) :
    Double.round q = Double.finite (m * 2 ^ (e - 52)) := by
  have hbin : binade q = e := binade_eq_of_bounds he h1 h2
  have hrv : roundValue q = m * 2 ^ (e - 52) := by
    unfold roundValue ulp
    rw [hbin, roundHalfEven_eq_of_abs_lt hm]
  unfold Double.round
  rw [hrv, if_neg (not_le.2 hb)]

theorem utilization_of_rounds {a b q s r : ℚ} (hb : b ≠ 0)
    (h1 : Double.round (a / b) = Double.finite q)
    (h2 : Double.round (1 - q) = Double.finite s)
    (h3 : Double.round (100 * s) = Double.finite r) :
    Double.mul (Double.finite 100)
      (Double.sub (Double.finite 1) (Double.div (Double.finite a) (Double.finite b))) =
      Double.finite r := by
  simp only [Double.div]
  rw [if_neg hb, h1]
  simp only [Double.sub]
  rw [h2]
  simp only [Double.mul]
  rw [h3]

theorem utilization_50_200 :
    Double.mul (Double.finite 100)
      (Double.sub (Double.finite 1)
        (Double.div (Double.ofUInt64 50) (Double.ofUInt64 200))) = Double.finite 75 := by
  rw [ofUInt64_small (by norm_num), ofUInt64_small (by norm_num)]
  apply utilization_of_rounds (q := 1 / 4) (s := 3 / 4) (by norm_num)
  · rw [round_dyadic 1 (-2) (by norm_num) (by norm_num) (by norm_num) (by norm_num [abs_lt])]
    norm_num
  · rw [round_dyadic 3 (-2) (by norm_num) (by norm_num) (by norm_num) (by norm_num [abs_lt])]
    norm_num
  · rw [round_dyadic 75 0 (by norm_num) (by norm_num) (by norm_num) (by norm_num [abs_lt])]
    norm_num

theorem utilization_400_200 :
    Double.mul (Double.finite 100)
      (Double.sub (Double.finite 1)
        (Double.div (Double.ofUInt64 400) (Double.ofUInt64 200))) = Double.finite (-100) := by
  rw [ofUInt64_small (by norm_num), ofUInt64_small (by norm_num)]
  apply utilization_of_rounds (q := 2) (s := -1) (by norm_num)
  · rw [round_dyadic 2 0 (by norm_num) (by norm_num) (by norm_num) (by norm_num [abs_lt])]
    norm_num
  · rw [round_dyadic (-1) 0 (by norm_num) (by norm_num) (by norm_num) (by norm_num [abs_lt])]
    norm_num
  · rw [round_dyadic (-100) 0 (by norm_num) (by norm_num) (by norm_num)
      (by norm_num [abs_lt])]
    norm_num

/-- The wrapped `idle_delta` of an idle counter that fell by 50, over 200 ticks:
`(double)(2^64 - 50)` is `2^64`, the quotient rounds to 92233720368547760 and
the product to `-2^63`. -/
theorem utilization_wrapped_200 :
    Double.mul (Double.finite 100)
      (Double.sub (Double.finite 1)
        (Double.div (Double.ofUInt64 (2 ^ 64 - 50)) (Double.ofUInt64 200))) =
      Double.finite (-9223372036854775808) := by
  have ha : Double.ofUInt64 (2 ^ 64 - 50) = Double.finite 18446744073709551616 := by
    unfold Double.ofUInt64
    rw [round_eval 63 9007199254740992 (by norm_num) (by norm_num [abs_le])
      (by norm_num [abs_lt]) (by norm_num [abs_lt]) (by norm_num [abs_lt])]
    norm_num
  rw [ha, ofUInt64_small (by norm_num)]
  apply utilization_of_rounds (q := 92233720368547760) (s := -92233720368547760)
    (by norm_num)
  · rw [round_eval 56 5764607523034235 (by norm_num) (by norm_num [le_abs])
      (by norm_num [abs_lt]) (by norm_num [abs_lt]) (by norm_num [abs_lt])]
    norm_num
  · rw [round_eval 56 (-5764607523034235) (by norm_num) (by norm_num [le_abs])
      (by norm_num [abs_lt]) (by norm_num [abs_lt]) (by norm_num [abs_lt])]
    norm_num
  · rw [round_eval 63 (-4503599627370496) (by norm_num) (by norm_num [le_abs])
      (by norm_num [abs_lt]) (by norm_num [abs_lt]) (by norm_num [abs_lt])]
    norm_num

/-! ## The first call -/

/-- Claim C9: after every call that could open its source the stored state is
exactly the sample of that call, on the priming path and on the delta path
alike: on Linux `prev_total`, `prev_idle` are the `total`, `idle` just computed
(both 0 when no line could be read), on macOS `prev_user`, `prev_system`,
`prev_idle` are the three totals just aggregated; a Linux call whose file
could not be opened leaves the state as it was. -/
theorem c9_state_is_latest_sample :
    (∀ (st : LinuxCpuState) (f : CpuFields),
      (get_cpu_usage_linux st (ProcStat.line f)).2 = ⟨f.total, f.idle⟩) ∧
    (∀ st : LinuxCpuState, (get_cpu_usage_linux st ProcStat.noLine).2 = ⟨0, 0⟩) ∧
    (∀ st : LinuxCpuState, (get_cpu_usage_linux st ProcStat.unreadable).2 = st) ∧
    (∀ (st : MacCpuState) (processor_info : List CpuLoad),
      (get_cpu_usage_macos st processor_info).2 =
        ⟨(host_processor_totals processor_info).total_user,
         (host_processor_totals processor_info).total_system,
         (host_processor_totals processor_info).total_idle⟩) := by
  refine ⟨get_cpu_usage_linux_line_state, ?_, ?_, ?_⟩
  · intro st
    unfold get_cpu_usage_linux
    simp only [read_proc_stat]
    split_ifs <;> rfl
  · intro st
    simp [get_cpu_usage_linux, read_proc_stat]
  · intro st processor_info
    unfold get_cpu_usage_macos
    simp only []
    split_ifs <;> rfl

/-! ## The priming test of the macOS branch -/

/-- Claim C10: the macOS branch takes its priming path (store the sample,
return 0.0, compute no delta) exactly on the calls that find `prev_user == 0`,
and computes the delta on all others. So when the first sample has a user+nice
total of 0 (`ticks_first`), the second call primes again: it returns 0.0
although system and idle ticks advanced, where the delta between the two
samples (idle 10 out of 80 ticks) evaluates to 87.5. -/
theorem c10_priming_iff_prev_user_zero :
    (∀ (st : MacCpuState) (processor_info : List CpuLoad),
      get_cpu_usage_macos st processor_info =
        if st.prev_user = 0 then
          (Double.finite 0,
            ⟨(host_processor_totals processor_info).total_user,
             (host_processor_totals processor_info).total_system,
             (host_processor_totals processor_info).total_idle⟩)
        else
          (Double.mul (Double.finite 100)
            (Double.sub (Double.finite 1)
              (Double.div
                (Double.ofUInt64
                  (sub64 (host_processor_totals processor_info).total_idle st.prev_idle))
                (Double.ofUInt64
                  (add64
                    (add64
                      (sub64 (host_processor_totals processor_info).total_user st.prev_user)
                      (sub64 (host_processor_totals processor_info).total_system
                        st.prev_system))
                    (sub64 (host_processor_totals processor_info).total_idle
                      st.prev_idle))))),
            ⟨(host_processor_totals processor_info).total_user,
             (host_processor_totals processor_info).total_system,
             (host_processor_totals processor_info).total_idle⟩)) ∧
    (host_processor_totals ticks_first = ⟨0, 5, 10⟩ ∧
      host_processor_totals ticks_second = ⟨40, 35, 20⟩ ∧
      poll_macos MacCpuState.initial [ticks_first, ticks_second] =
        [Double.finite 0, Double.finite 0] ∧
      Double.mul (Double.finite 100)
        (Double.sub (Double.finite 1)
          (Double.div (Double.ofUInt64 (sub64 20 10))
            (Double.ofUInt64 (add64 (add64 (sub64 40 0) (sub64 35 5)) (sub64 20 10))))) =
        Double.finite (175 / 2)) := by
  refine ⟨?_, ?_, ?_, ?_, ?_⟩
  · intro st processor_info
    unfold get_cpu_usage_macos
    simp only []
  · decide
  · decide
  · have h1 : host_processor_totals ticks_first = ⟨0, 5, 10⟩ := by decide
    simp [poll_macos, get_cpu_usage_macos, MacCpuState.initial, h1]
  · have hi : sub64 20 10 = 10 := by decide
    have ht : add64 (add64 (sub64 40 0) (sub64 35 5)) (sub64 20 10) = 80 := by decide
    rw [ht, hi, ofUInt64_small (by norm_num), ofUInt64_small (by norm_num)]
    simp only [Double.div]
    rw [if_neg (by norm_num), round_dyadic 1 (-3) (by norm_num) (by norm_num) (by norm_num)
      (by norm_num [abs_lt])]
    simp only [Double.sub]
    rw [round_dyadic 7 (-3) (by norm_num) (by norm_num) (by norm_num) (by norm_num [abs_lt])]
    simp only [Double.mul]
    rw [round_dyadic 175 (-1) (by norm_num) (by norm_num) (by norm_num)
      (by norm_num [abs_lt])]
    norm_num

/-! ## `get_memory_info` -/

/-- Claim C6: whenever `get_memory_info` writes its three outputs, which it
does on every successful read (Linux: `sysinfo` returned 0; macOS: the return
code differs from the constant it is compared with; Windows: always), the
values satisfy `used == total - free` and `used + free == total` in 64-bit
unsigned arithmetic. -/
theorem c6_memory_snapshot_consistent :
    (∀ (si : SysInfo) (out : MemInfo), (get_memory_info_linux 0 si out).1.consistent) ∧
    (∀ (HOST_VM_INFO64 kr : ℤ) (vm_stats : VmStats) (page_size : ℕ) (out : MemInfo),
      kr ≠ HOST_VM_INFO64 →
        (get_memory_info_macos HOST_VM_INFO64 kr vm_stats page_size out).1.consistent) ∧
    (∀ (ok : Bool) (ullTotalPhys ullAvailPhys : ℕ) (out : MemInfo),
      (get_memory_info_win32 ok ullTotalPhys ullAvailPhys out).1.consistent) := by
  have key : ∀ t f : ℕ, t < U64 → f < U64 →
      MemInfo.consistent ⟨t, sub64 t f, f⟩ := by
    intro t f ht hf
    refine ⟨rfl, ?_⟩
    show add64 (sub64 t f) f = t
    unfold add64 sub64 U64 at *
    omega
  have hpos : 0 < U64 := by unfold U64; norm_num
  refine ⟨?_, ?_, ?_⟩
  · intro si out
    simp only [get_memory_info_linux, ne_eq, not_true_eq_false, if_false]
    exact key _ _ (Nat.mod_lt _ hpos) (Nat.mod_lt _ hpos)
  · intro H kr vm_stats page_size out hkr
    simp only [get_memory_info_macos, if_neg (Ne.symm hkr)]
    exact key _ _ (Nat.mod_lt _ hpos) (Nat.mod_lt _ hpos)
  · intro ok t a out
    simp only [get_memory_info_win32]
    exact key _ _ (Nat.mod_lt _ hpos) (Nat.mod_lt _ hpos)

/-- Witness for C6 on macOS: return code 0 (`KERN_SUCCESS`) against the
constant 4, 10 pages of 4096 bytes of which 1 is free. -/
theorem c6_memory_snapshot_consistent_witness :
    (0 : ℤ) ≠ 4 ∧ (get_memory_info_macos 4 0 ⟨1, 2, 3, 4⟩ 4096 ⟨0, 0, 0⟩).1.consistent :=
  ⟨by decide, c6_memory_snapshot_consistent.2.1 4 0 ⟨1, 2, 3, 4⟩ 4096 ⟨0, 0, 0⟩ (by decide)⟩

/-- Claim C7, as stated, fails. On macOS a failed `host_statistics64` that
returns 5 (`KERN_FAILURE`; the code compares the result with the flavor
constant `HOST_VM_INFO64` = 4, not with success) prints nothing and
overwrites the three outputs with values computed from the structure the
failed call left behind; on Windows the result of `GlobalMemoryStatusEx` is
never looked at, so a failed call does the same. -/
theorem c7_counterexample_failed_read_is_written :
    get_memory_info_macos 4 5 ⟨1, 2, 3, 4⟩ 4096 ⟨0, 0, 0⟩ = (⟨40960, 36864, 4096⟩, []) ∧
    get_memory_info_win32 false 7 3 ⟨0, 0, 0⟩ = (⟨7, 4, 3⟩, []) := by
  constructor <;> decide

/-- Claim C7, amended: on the Linux branch, whenever `sysinfo` returns non-zero,
`get_memory_info` prints its error line and returns with `total_mem`,
`used_mem` and `free_mem` as they were, writing nothing taken from the failed
read; the Windows branch makes no such test: whatever `GlobalMemoryStatusEx`
returned, it prints nothing and writes the three values from the structure. -/
theorem c7_linux_failure_leaves_outputs :
    (∀ (ret : ℤ) (si : SysInfo) (out : MemInfo), ret ≠ 0 →
      get_memory_info_linux ret si out = (out, ["Error getting system info\n"])) ∧
    (∀ (ok : Bool) (ullTotalPhys ullAvailPhys : ℕ) (out : MemInfo),
      get_memory_info_win32 ok ullTotalPhys ullAvailPhys out =
        (⟨ullTotalPhys % U64, sub64 (ullTotalPhys % U64) (ullAvailPhys % U64),
          ullAvailPhys % U64⟩, [])) := by
  constructor
  · intro ret si out h
    unfold get_memory_info_linux
    rw [if_pos h]
  · intro ok t a out
    rfl

/-- Witness for C7: `sysinfo` returning -1 with outputs holding 7, 4, 3. -/
theorem c7_linux_failure_leaves_outputs_witness :
    (-1 : ℤ) ≠ 0 ∧
      get_memory_info_linux (-1) ⟨100, 50, 4096⟩ ⟨7, 4, 3⟩ =
        (⟨7, 4, 3⟩, ["Error getting system info\n"]) :=
  ⟨by decide,
    c7_linux_failure_leaves_outputs.1 (-1) ⟨100, 50, 4096⟩ ⟨7, 4, 3⟩ (by decide)⟩

/-! ## An unreadable `/proc/stat` -/

/-- Claim C8, as stated, fails: the value returned when `/proc/stat` cannot be
opened is the very value returned by a successful first poll, and the function
hands the caller nothing else, so the caller cannot tell the two apart. -/
theorem c8_counterexample_failure_looks_like_success :
    (get_cpu_usage_linux LinuxCpuState.initial ProcStat.unreadable).1 =
      (get_cpu_usage_linux LinuxCpuState.initial (ProcStat.line stat_800_450)).1 := by
  simp [get_cpu_usage_linux, read_proc_stat, LinuxCpuState.initial]

/-- Claim C8, amended: when `/proc/stat` cannot be opened `get_cpu_usage` still
returns: the value is 0.0 and the stored state is left as it was. No error
condition is reported; the 0.0 is the value every successful first poll
returns too. -/
theorem c8_unreadable_returns_zero :
    (∀ st : LinuxCpuState,
      get_cpu_usage_linux st ProcStat.unreadable = (Double.finite 0, st)) ∧
    (∀ f : CpuFields,
      (get_cpu_usage_linux LinuxCpuState.initial ProcStat.unreadable).1 =
        (get_cpu_usage_linux LinuxCpuState.initial (ProcStat.line f)).1) := by
  constructor
  · intro st
    simp [get_cpu_usage_linux, read_proc_stat]
  · intro f
    simp [get_cpu_usage_linux, read_proc_stat, LinuxCpuState.initial]

/-! ## Two successive polls on Linux -/

theorem get_cpu_usage_linux_second_value (st0 : LinuxCpuState) {prev : CpuFields}
    (h : prev.total ≠ 0) (cur : CpuFields) :
    (get_cpu_usage_linux (get_cpu_usage_linux st0 (ProcStat.line prev)).2
        (ProcStat.line cur)).1 =
      Double.mul (Double.finite 100)
        (Double.sub (Double.finite 1)
          (Double.div (Double.ofUInt64 (sub64 cur.idle prev.idle))
            (Double.ofUInt64 (sub64 cur.total prev.total)))) := by
  rw [get_cpu_usage_linux_line_state]
  exact get_cpu_usage_linux_line_value ⟨prev.total, prev.idle⟩ h cur

/-- Claim C3 on the code: three polls of `/proc/stat` reading total 800 / idle
450, then total 1000 / idle 500 twice, and once more with the same total and
idle 600. The second poll returns 75.0; the third has `total_delta == 0` and
`idle_delta == 0` and returns NaN; the fourth has `total_delta == 0` and
`idle_delta == 100` and returns minus infinity. Neither is 0.0 or the value
returned before. -/
theorem c3_zero_total_delta_returns_nan :
    poll_linux LinuxCpuState.initial
        [ProcStat.line stat_800_450, ProcStat.line stat_1000_500,
          ProcStat.line stat_1000_500, ProcStat.line stat_1000_600] =
      [Double.finite 0, Double.finite 75, Double.nan, Double.negInf] := by
  have v1 : (get_cpu_usage_linux LinuxCpuState.initial (ProcStat.line stat_800_450)).1 =
      Double.finite 0 := get_cpu_usage_linux_line_priming _ rfl _
  have v2 : (get_cpu_usage_linux ⟨stat_800_450.total, stat_800_450.idle⟩
      (ProcStat.line stat_1000_500)).1 = Double.finite 75 := by
    rw [get_cpu_usage_linux_line_value _ (by decide)]
    have hi : sub64 stat_1000_500.idle stat_800_450.idle = 50 := by decide
    have ht : sub64 stat_1000_500.total stat_800_450.total = 200 := by decide
    simp only [hi, ht]
    exact utilization_50_200
  have v3 : (get_cpu_usage_linux ⟨stat_1000_500.total, stat_1000_500.idle⟩
      (ProcStat.line stat_1000_500)).1 = Double.nan := by
    rw [get_cpu_usage_linux_line_value _ (by decide)]
    have hi : sub64 stat_1000_500.idle stat_1000_500.idle = 0 := by decide
    have ht : sub64 stat_1000_500.total stat_1000_500.total = 0 := by decide
    simp only [hi, ht]
    exact utilization_zero_zero
  have v4 : (get_cpu_usage_linux ⟨stat_1000_500.total, stat_1000_500.idle⟩
      (ProcStat.line stat_1000_600)).1 = Double.negInf := by
    rw [get_cpu_usage_linux_line_value _ (by decide)]
    have hi : sub64 stat_1000_600.idle stat_1000_500.idle = 100 := by decide
    have ht : sub64 stat_1000_600.total stat_1000_500.total = 0 := by decide
    simp only [hi, ht]
    exact utilization_pos_zero (by norm_num) (by unfold U64; norm_num)
  simp only [poll_linux, get_cpu_usage_linux_line_state, v1, v2, v3, v4]

/-- Claim C4, as stated, fails. With `total_delta == 0` both of its conditions
hold at once (`idle_delta == total_delta` and `idle_delta == 0`) and the call
returns NaN, neither 0.0 nor 100.0. And when the stored sample has total 0 the
next call primes again: after the all-zero line, the line with total 100 and
idle 0 has `idle_delta == 0` yet returns 0.0, not 100.0. -/
theorem c4_counterexample_zero_delta_and_zero_total :
    (get_cpu_usage_linux
        (get_cpu_usage_linux LinuxCpuState.initial (ProcStat.line stat_1000_500)).2
        (ProcStat.line stat_1000_500)).1 = Double.nan ∧
    (get_cpu_usage_linux
        (get_cpu_usage_linux LinuxCpuState.initial (ProcStat.line stat_zero)).2
        (ProcStat.line stat_100_0)).1 = Double.finite 0 := by
  constructor
  · rw [get_cpu_usage_linux_second_value _ (by decide)]
    have hi : sub64 stat_1000_500.idle stat_1000_500.idle = 0 := by decide
    have ht : sub64 stat_1000_500.total stat_1000_500.total = 0 := by decide
    simp only [hi, ht]
    exact utilization_zero_zero
  · rw [get_cpu_usage_linux_line_state]
    exact get_cpu_usage_linux_line_priming _ (by decide) _

/-- Claim C4, amended: on a poll after a sample with non-zero total was stored
and with `total_delta` different from 0, `get_cpu_usage` returns exactly 0.0 if
`idle_delta == total_delta` and exactly 100.0 if `idle_delta == 0`. -/
theorem c4_all_idle_zero_no_idle_hundred (st0 : LinuxCpuState) (prev cur : CpuFields)
    (hprev : prev.total ≠ 0) (hdelta : cur.total ≠ prev.total) :
    (((cur.idle : ℤ) - prev.idle = (cur.total : ℤ) - prev.total →
      (get_cpu_usage_linux (get_cpu_usage_linux st0 (ProcStat.line prev)).2
        (ProcStat.line cur)).1 = Double.finite 0) ∧
    (cur.idle = prev.idle →
      (get_cpu_usage_linux (get_cpu_usage_linux st0 (ProcStat.line prev)).2
        (ProcStat.line cur)).1 = Double.finite 100)) := by
  rw [get_cpu_usage_linux_second_value st0 hprev cur]
  have hct := cur.total_lt
  have hpt := prev.total_lt
  have hci := cur.idle_lt
  have hpi := prev.idle_lt
  have htb : sub64 cur.total prev.total < U64 := sub64_lt _ _
  have ht0 : 0 < sub64 cur.total prev.total := by
    rcases Nat.eq_zero_or_pos (sub64 cur.total prev.total) with h | h
    · exact absurd ((sub64_eq_zero_iff hct hpt).1 h) hdelta
    · exact h
  constructor
  · intro heq
    have : sub64 cur.idle prev.idle = sub64 cur.total prev.total := by
      unfold sub64 U64 at *
      omega
    rw [this]
    exact utilization_all_idle ht0 htb
  · intro heq
    have : sub64 cur.idle prev.idle = 0 := (sub64_eq_zero_iff hci hpi).2 heq
    rw [this]
    exact utilization_no_idle ht0 htb

/-- Witness for C4: total 800 / idle 450 stored, then total 1000 / idle 450. -/
theorem c4_all_idle_zero_no_idle_hundred_witness :
    stat_800_450.total ≠ 0 ∧ stat_1000_450.total ≠ stat_800_450.total ∧
      stat_1000_450.idle = stat_800_450.idle ∧
      (get_cpu_usage_linux
        (get_cpu_usage_linux LinuxCpuState.initial (ProcStat.line stat_800_450)).2
        (ProcStat.line stat_1000_450)).1 = Double.finite 100 :=
  ⟨by decide, by decide, by decide,
    (c4_all_idle_zero_no_idle_hundred LinuxCpuState.initial stat_800_450 stat_1000_450
      (by decide) (by decide)).2 (by decide)⟩

/-! ## The utilization formula -/

theorem spec_utilization_800_450_1000_400 :
    spec_utilization 800 450 1000 400 = Double.finite 125 := by
  unfold spec_utilization Double.ofInt
  simp only []
  have h1 : (((400 : ℕ) : ℤ) - ((450 : ℕ) : ℤ) : ℤ) = -50 := by norm_num
  have h2 : (((1000 : ℕ) : ℤ) - ((800 : ℕ) : ℤ) : ℤ) = 200 := by norm_num
  rw [h1, h2]
  rw [round_dyadic (-50) 0 (by norm_num) (by norm_num) (by norm_num) (by norm_num [abs_lt]),
    round_dyadic 200 0 (by norm_num) (by norm_num) (by norm_num) (by norm_num [abs_lt])]
  apply utilization_of_rounds (q := -1 / 4) (s := 5 / 4) (by norm_num)
  · rw [round_dyadic (-1) (-2) (by norm_num) (by norm_num) (by norm_num)
      (by norm_num [abs_lt])]
    norm_num
  · rw [round_dyadic 5 (-2) (by norm_num) (by norm_num) (by norm_num) (by norm_num [abs_lt])]
    norm_num
  · rw [round_dyadic 125 0 (by norm_num) (by norm_num) (by norm_num) (by norm_num [abs_lt])]
    norm_num

/-- Claim C5, as stated, fails when `idle` decreases. After total 800 / idle
450, the line with total 1000 / idle 400 (`iowait` fell by 50) has
`total_delta = 200 > 0` and `idle_delta = -50`, for which the formula gives
`100 * (1 + 50/200) = 125.0`; the code subtracts in `unsigned long long`, gets
`idle_delta = 2^64 - 50` and returns `-2^63`. -/
theorem c5_counterexample_idle_decreases :
    stat_800_450.total = 800 ∧ stat_800_450.idle = 450 ∧
    stat_1000_400.total = 1000 ∧ stat_1000_400.idle = 400 ∧
    spec_utilization 800 450 1000 400 = Double.finite 125 ∧
    (get_cpu_usage_linux
        (get_cpu_usage_linux LinuxCpuState.initial (ProcStat.line stat_800_450)).2
        (ProcStat.line stat_1000_400)).1 = Double.finite (-9223372036854775808) := by
  refine ⟨by decide, by decide, by decide, by decide, spec_utilization_800_450_1000_400, ?_⟩
  rw [get_cpu_usage_linux_second_value _ (by decide)]
  have hi : sub64 stat_1000_400.idle stat_800_450.idle = 2 ^ 64 - 50 := by decide
  have ht : sub64 stat_1000_400.total stat_800_450.total = 200 := by decide
  simp only [hi, ht]
  exact utilization_wrapped_200

/-- Claim C5, amended: on the Linux branch, with `idle = idle_time + iowait` and
`total` the sum of the eight fields, on every poll after a previous sample with
non-zero total was stored, with `total_delta > 0` and `idle_delta ≥ 0`
(`idle` did not decrease), `get_cpu_usage` returns
`100 * (1 - idle_delta / total_delta)` evaluated in `double`; in particular
total 800 / idle 450 followed by total 1000 / idle 500 returns 75.0. -/
theorem c5_linux_utilization_formula :
    (∀ (st0 : LinuxCpuState) (prev cur : CpuFields),
      prev.total ≠ 0 → prev.total < cur.total → prev.idle ≤ cur.idle →
        (get_cpu_usage_linux (get_cpu_usage_linux st0 (ProcStat.line prev)).2
          (ProcStat.line cur)).1 =
          spec_utilization prev.total prev.idle cur.total cur.idle) ∧
    (stat_800_450.total = 800 ∧ stat_800_450.idle = 450 ∧
      stat_1000_500.total = 1000 ∧ stat_1000_500.idle = 500 ∧
      (get_cpu_usage_linux
        (get_cpu_usage_linux LinuxCpuState.initial (ProcStat.line stat_800_450)).2
        (ProcStat.line stat_1000_500)).1 = Double.finite 75) := by
  constructor
  · intro st0 prev cur hprev htot hidle
    rw [get_cpu_usage_linux_second_value st0 hprev cur]
    rw [sub64_of_le hidle cur.idle_lt, sub64_of_le htot.le cur.total_lt]
    unfold spec_utilization Double.ofUInt64 Double.ofInt
    simp only []
    have h1 : (((cur.idle - prev.idle : ℕ) : ℚ)) = (((cur.idle : ℤ) - (prev.idle : ℤ) : ℤ) : ℚ) := by
      push_cast [Nat.cast_sub hidle]; rfl
    have h2 : (((cur.total - prev.total : ℕ) : ℚ)) =
        (((cur.total : ℤ) - (prev.total : ℤ) : ℤ) : ℚ) := by
      push_cast [Nat.cast_sub htot.le]; rfl
    rw [h1, h2]
  · refine ⟨by decide, by decide, by decide, by decide, ?_⟩
    rw [get_cpu_usage_linux_second_value _ (by decide)]
    have hi : sub64 stat_1000_500.idle stat_800_450.idle = 50 := by decide
    have ht : sub64 stat_1000_500.total stat_800_450.total = 200 := by decide
    simp only [hi, ht]
    exact utilization_50_200

/-- Witness for C5: the general statement at total 800 / idle 450 followed by
total 1000 / idle 500. -/
theorem c5_linux_utilization_formula_witness :
    stat_800_450.total ≠ 0 ∧ stat_800_450.total < stat_1000_500.total ∧
      stat_800_450.idle ≤ stat_1000_500.idle ∧
      (get_cpu_usage_linux
        (get_cpu_usage_linux LinuxCpuState.initial (ProcStat.line stat_800_450)).2
        (ProcStat.line stat_1000_500)).1 =
        spec_utilization stat_800_450.total stat_800_450.idle stat_1000_500.total
          stat_1000_500.idle :=
  ⟨by decide, by decide, by decide,
    c5_linux_utilization_formula.1 LinuxCpuState.initial stat_800_450 stat_1000_500
      (by decide) (by decide) (by decide)⟩

/-! ## Range of the returned value -/

theorem poll_linux_inPercentRange (polls : List CpuFields) :
    ∀ prev : CpuFields, List.Chain CpuFields.advances prev polls →
      ∀ v ∈ poll_linux ⟨prev.total, prev.idle⟩ (polls.map ProcStat.line),
        v.inPercentRange := by
  induction polls with
  | nil => intro prev _ v hv; simp [poll_linux] at hv
  | cons cur rest ih =>
    intro prev hchain v hv
    rw [List.chain_cons] at hchain
    obtain ⟨⟨htot, hidle, hle⟩, hrest⟩ := hchain
    simp only [List.map_cons, poll_linux, List.mem_cons] at hv
    rcases hv with hv | hv
    · rw [hv]
      by_cases h0 : prev.total = 0
      · rw [get_cpu_usage_linux_line_priming ⟨prev.total, prev.idle⟩ h0]
        exact ⟨le_rfl, by norm_num⟩
      · rw [get_cpu_usage_linux_line_value ⟨prev.total, prev.idle⟩ h0]
        simp only []
        rw [sub64_of_le hidle cur.idle_lt, sub64_of_le htot.le cur.total_lt]
        have hct := cur.total_lt
        exact utilization_inPercentRange hle (by omega) (by omega)
    · rw [get_cpu_usage_linux_line_state] at hv
      exact ih cur hrest v hv

theorem host_processor_totals_lt (processor_info : List CpuLoad) :
    (host_processor_totals processor_info).total_user < U64 ∧
      (host_processor_totals processor_info).total_system < U64 ∧
      (host_processor_totals processor_info).total_idle < U64 := by
  have hpos : 0 < U64 := by unfold U64; norm_num
  unfold host_processor_totals
  have key : ∀ (l : List CpuLoad) (acc : MacSample),
      acc.total_user < U64 ∧ acc.total_system < U64 ∧ acc.total_idle < U64 →
      (l.foldl
          (fun acc p =>
            (⟨add64 acc.total_user (toU64 (wrap32 (p.user + p.nice))),
              add64 acc.total_system (toU64 p.system),
              add64 acc.total_idle (toU64 p.idle)⟩ : MacSample)) acc).total_user < U64 ∧
        (l.foldl
          (fun acc p =>
            (⟨add64 acc.total_user (toU64 (wrap32 (p.user + p.nice))),
              add64 acc.total_system (toU64 p.system),
              add64 acc.total_idle (toU64 p.idle)⟩ : MacSample)) acc).total_system < U64 ∧
        (l.foldl
          (fun acc p =>
            (⟨add64 acc.total_user (toU64 (wrap32 (p.user + p.nice))),
              add64 acc.total_system (toU64 p.system),
              add64 acc.total_idle (toU64 p.idle)⟩ : MacSample)) acc).total_idle < U64 := by
    intro l
    induction l with
    | nil => intro acc h; exact h
    | cons p rest ih =>
      intro acc _
      rw [List.foldl_cons]
      apply ih
      exact ⟨Nat.mod_lt _ hpos, Nat.mod_lt _ hpos, Nat.mod_lt _ hpos⟩
  exact key processor_info ⟨0, 0, 0⟩ ⟨hpos, hpos, hpos⟩

theorem sub64_cases {a b : ℕ} (ha : a < U64) (hb : b < U64) :
    (a ≤ b ∧ sub64 b a + a = b) ∨ (b < a ∧ sub64 b a + a = 2 ^ 64 + b) := by
  unfold sub64 U64 at *
  omega

theorem wrapped_sum_of_deltas (ua sa ia ub sb ib x y z : ℕ)
    (hx : (ua ≤ ub ∧ x + ua = ub) ∨ (ub < ua ∧ x + ua = 2 ^ 64 + ub))
    (hy : (sa ≤ sb ∧ y + sa = sb) ∨ (sb < sa ∧ y + sa = 2 ^ 64 + sb))
    (hz : (ia ≤ ib ∧ z + ia = ib) ∨ (ib < ia ∧ z + ia = 2 ^ 64 + ib))
    (h : (ua + sa + ia) % 2 ^ 64 < (ub + sb + ib) % 2 ^ 64) :
    ((x + y) % 2 ^ 64 + z) % 2 ^ 64 = (ub + sb + ib) % 2 ^ 64 - (ua + sa + ia) % 2 ^ 64 := by
  have e1 := Nat.div_add_mod (ua + sa + ia) (2 ^ 64)
  have e2 := Nat.div_add_mod (ub + sb + ib) (2 ^ 64)
  have e3 := Nat.div_add_mod (x + y) (2 ^ 64)
  have e4 := Nat.div_add_mod ((x + y) % 2 ^ 64 + z) (2 ^ 64)
  have b1 := Nat.mod_lt (ua + sa + ia) (show 0 < 2 ^ 64 by norm_num)
  have b2 := Nat.mod_lt (ub + sb + ib) (show 0 < 2 ^ 64 by norm_num)
  have b3 := Nat.mod_lt (x + y) (show 0 < 2 ^ 64 by norm_num)
  have b4 := Nat.mod_lt ((x + y) % 2 ^ 64 + z) (show 0 < 2 ^ 64 by norm_num)
  generalize (ua + sa + ia) % 2 ^ 64 = r1 at *
  generalize (ub + sb + ib) % 2 ^ 64 = r2 at *
  generalize (ua + sa + ia) / 2 ^ 64 = q1 at *
  generalize (ub + sb + ib) / 2 ^ 64 = q2 at *
  generalize ((x + y) % 2 ^ 64 + z) % 2 ^ 64 = r4 at *
  generalize ((x + y) % 2 ^ 64 + z) / 2 ^ 64 = q4 at *
  generalize (x + y) % 2 ^ 64 = r3 at *
  generalize (x + y) / 2 ^ 64 = q3 at *
  omega

theorem macos_total_delta {a b : MacSample} (ha : a.total_user < U64 ∧ a.total_system < U64 ∧
    a.total_idle < U64) (hb : b.total_user < U64 ∧ b.total_system < U64 ∧ b.total_idle < U64)
    (h : a.total < b.total) :
    add64 (add64 (sub64 b.total_user a.total_user) (sub64 b.total_system a.total_system))
      (sub64 b.total_idle a.total_idle) = b.total - a.total := by
  obtain ⟨h1, h2, h3⟩ := ha
  obtain ⟨h4, h5, h6⟩ := hb
  have hx := sub64_cases h1 h4
  have hy := sub64_cases h2 h5
  have hz := sub64_cases h3 h6
  exact wrapped_sum_of_deltas _ _ _ _ _ _ _ _ _ hx hy hz h

theorem get_cpu_usage_macos_state (st : MacCpuState) (processor_info : List CpuLoad) :
    (get_cpu_usage_macos st processor_info).2 =
      ⟨(host_processor_totals processor_info).total_user,
       (host_processor_totals processor_info).total_system,
       (host_processor_totals processor_info).total_idle⟩ := by
  unfold get_cpu_usage_macos
  simp only []
  split_ifs <;> rfl

theorem poll_macos_inPercentRange (polls : List (List CpuLoad)) :
    ∀ prev : List CpuLoad,
      List.Chain (fun a b => (host_processor_totals a).advances (host_processor_totals b))
        prev polls →
      ∀ v ∈ poll_macos
          ⟨(host_processor_totals prev).total_user, (host_processor_totals prev).total_system,
            (host_processor_totals prev).total_idle⟩ polls,
        v.inPercentRange := by
  induction polls with
  | nil => intro prev _ v hv; simp [poll_macos] at hv
  | cons cur rest ih =>
    intro prev hchain v hv
    rw [List.chain_cons] at hchain
    obtain ⟨⟨htot, hidle, hle⟩, hrest⟩ := hchain
    simp only [poll_macos, List.mem_cons] at hv
    rcases hv with hv | hv
    · rw [hv]
      unfold get_cpu_usage_macos
      simp only []
      split_ifs with h0
      · exact ⟨le_rfl, by norm_num⟩
      · have hp := host_processor_totals_lt prev
        have hc := host_processor_totals_lt cur
        simp only []
        rw [macos_total_delta hp hc htot, sub64_of_le hidle hc.2.2]
        have hlt : (host_processor_totals cur).total < U64 := by
          unfold MacSample.total
          exact Nat.mod_lt _ (by unfold U64; norm_num)
        exact utilization_inPercentRange hle (by omega) (by omega)
    · rw [get_cpu_usage_macos_state] at hv
      exact ih cur hrest v hv

/-- Claim C1, as stated, fails: a strictly increasing `total` does not keep the
result in range, and nothing clamps it. After total 800 / idle 450, the line
with total 1000 / idle 400 (`iowait` fell by 50) makes the second poll return
`-2^63`; the line with total 1000 / idle 850 (idle grew by 400 while total grew
by 200) makes it return -100.0. -/
theorem c1_counterexample_out_of_range :
    (stat_800_450.total < stat_1000_400.total ∧
      poll_linux LinuxCpuState.initial
          [ProcStat.line stat_800_450, ProcStat.line stat_1000_400] =
        [Double.finite 0, Double.finite (-9223372036854775808)] ∧
      ¬ (Double.finite (-9223372036854775808)).inPercentRange) ∧
    (stat_800_450.total < stat_1000_850.total ∧
      poll_linux LinuxCpuState.initial
          [ProcStat.line stat_800_450, ProcStat.line stat_1000_850] =
        [Double.finite 0, Double.finite (-100)] ∧
      ¬ (Double.finite (-100)).inPercentRange) := by
  have v1 : (get_cpu_usage_linux LinuxCpuState.initial (ProcStat.line stat_800_450)).1 =
      Double.finite 0 := get_cpu_usage_linux_line_priming _ rfl _
  have v2 : (get_cpu_usage_linux ⟨stat_800_450.total, stat_800_450.idle⟩
      (ProcStat.line stat_1000_400)).1 = Double.finite (-9223372036854775808) := by
    rw [get_cpu_usage_linux_line_value _ (by decide)]
    have hi : sub64 stat_1000_400.idle stat_800_450.idle = 2 ^ 64 - 50 := by decide
    have ht : sub64 stat_1000_400.total stat_800_450.total = 200 := by decide
    simp only [hi, ht]
    exact utilization_wrapped_200
  have v3 : (get_cpu_usage_linux ⟨stat_800_450.total, stat_800_450.idle⟩
      (ProcStat.line stat_1000_850)).1 = Double.finite (-100) := by
    rw [get_cpu_usage_linux_line_value _ (by decide)]
    have hi : sub64 stat_1000_850.idle stat_800_450.idle = 400 := by decide
    have ht : sub64 stat_1000_850.total stat_800_450.total = 200 := by decide
    simp only [hi, ht]
    exact utilization_400_200
  refine ⟨⟨by decide, ?_, ?_⟩, ⟨by decide, ?_, ?_⟩⟩
  · simp only [poll_linux, get_cpu_usage_linux_line_state, v1, v2]
  · simp only [Double.inPercentRange]; norm_num
  · simp only [poll_linux, get_cpu_usage_linux_line_state, v1, v3]
  · simp only [Double.inPercentRange]; norm_num

/-- Claim C1, amended: for every sequence of samples in which, from one poll to
the next, `total` strictly increases, `idle` does not decrease and `idle`
grows by no more than `total` (as holds when no counter decreases), every
value returned by `get_cpu_usage`, polled from the initial state with the
backend read being the next sample of the sequence, lies in [0.0, 100.0]; on
the Linux branch and on the macOS branch. -/
theorem c1_monotone_samples_in_percent_range :
    (∀ polls : List CpuFields, List.Chain' CpuFields.advances polls →
      ∀ v ∈ poll_linux LinuxCpuState.initial (polls.map ProcStat.line),
        v.inPercentRange) ∧
    (∀ polls : List (List CpuLoad),
      List.Chain' (fun a b => (host_processor_totals a).advances (host_processor_totals b))
        polls →
      ∀ v ∈ poll_macos MacCpuState.initial polls, v.inPercentRange) := by
  constructor
  · intro polls hchain v hv
    cases polls with
    | nil => simp [poll_linux] at hv
    | cons first rest =>
      simp only [List.map_cons, poll_linux, List.mem_cons] at hv
      rcases hv with hv | hv
      · rw [hv, get_cpu_usage_linux_line_priming _ rfl]
        exact ⟨le_rfl, by norm_num⟩
      · rw [get_cpu_usage_linux_line_state] at hv
        exact poll_linux_inPercentRange rest first hchain v hv
  · intro polls hchain v hv
    cases polls with
    | nil => simp [poll_macos] at hv
    | cons first rest =>
      simp only [poll_macos, List.mem_cons] at hv
      rcases hv with hv | hv
      · rw [hv]
        simp only [get_cpu_usage_macos, MacCpuState.initial, if_true]
        exact ⟨le_rfl, by norm_num⟩
      · rw [get_cpu_usage_macos_state] at hv
        exact poll_macos_inPercentRange rest first hchain v hv

/-- Witness for C1: total 800 / idle 450 followed by total 1000 / idle 500. -/
theorem c1_monotone_samples_in_percent_range_witness :
    List.Chain' CpuFields.advances [stat_800_450, stat_1000_500] ∧
      ∀ v ∈ poll_linux LinuxCpuState.initial
          ([stat_800_450, stat_1000_500].map ProcStat.line),
        v.inPercentRange :=
  ⟨by simp [List.Chain', CpuFields.advances]; decide,
    c1_monotone_samples_in_percent_range.1 [stat_800_450, stat_1000_500]
      (by simp [List.Chain', CpuFields.advances]; decide)⟩

end SystemMonitor
